import Mathlib

/-!
Verification of the numba parallel-vectorize workqueue
(`numba/npyufunc/workqueue.c`) and the hash-caching wrapper
(`numba/_hashwrap.c`).

The dispatcher code is embedded shallowly:

* `cas_wait` becomes a step function on an explicit loop state
  (`CasWaitState`), iterated by fuel, with the CAS provider an optional
  function value (the global `cas` pointer, NULL when absent).
* The module globals `queues` / `queue_count` / `queue_pivot` and the
  liveness of the malloc'd slot block become the record `Globals`;
  `launch_threads`, `add_task` and `reset_after_fork` are state
  transformers on it.
* The concurrent protocol (one driver running `ready` then
  `synchronize`, one worker thread per slot running `thread_worker`)
  becomes a small-step transition relation `Step` on a configuration
  holding each slot's lock state, each worker's position in its loop,
  the driver's remaining compare-and-swap operations, and a log of
  executed tasks.  A valid CAS provider makes each `cas_wait` call an
  atomic guarded transition that blocks until it fires, which is
  exactly what a guarded small step expresses.

The state constants come from `workqueue.h`, which is not part of the
sources at hand; following the spec ("WorkerSlots zero-initialized
(state = Idle)" and the transition table Idle→Ready→Running→Done→Idle)
they are modelled as the four-constructor type `QState` with `IDLE`
the zero-initialised state.
-/

namespace Workqueue

/-! ## The slot state machine -/

/-- Modelled from the spec: the four slot states of `workqueue.h`
(`IDLE`, `READY`, `RUNNING`, `DONE`); `IDLE` is the state produced by
zero-initialisation of a slot. -/
inductive QState where
  | IDLE
  | READY
  | RUNNING
  | DONE
deriving DecidableEq

/-- Successor in the cycle Idle→Ready→Running→Done→Idle. -/
def QState.next : QState → QState
  | .IDLE => .READY
  | .READY => .RUNNING
  | .RUNNING => .DONE
  | .DONE => .IDLE

/-! ## `cas_wait`: spin loop with exponential backoff -/

/-- `MAX_WAIT_TIME` from `cas_wait`: max nap is 20ms (20 * 1000 us). -/
def MAX_WAIT_TIME : Int := 20 * 1000

/-- One update of `timeout` at the bottom of the `cas_wait` loop:
`timeout <<= 1; if (timeout >= MAX_WAIT_TIME) timeout = MAX_WAIT_TIME;`.
The shift is written as multiplication by two; the value is capped at
40000 before it is ever doubled again, so no 32-bit overflow can occur
and `Int` is a faithful carrier. -/
def nextTimeout (t : Int) : Int :=
  if 2 * t ≥ MAX_WAIT_TIME then MAX_WAIT_TIME else 2 * t

/-- A CAS provider: given the current contents of `*ptr`, `old` and
`repl`, it returns the value `out` read from `*ptr` and the new
contents of `*ptr`. -/
def CasProvider : Type := Int → Int → Int → Int × Int

/-- The canonical valid CAS provider: atomically replace `old` by
`repl` and return the previous contents. -/
def validCas : CasProvider :=
  fun mem old repl => if mem = old then (mem, repl) else (mem, mem)

/-- Loop state of one `cas_wait` call: the contents of the shared
integer `*ptr`, the local `timeout`, and whether the call has
returned. -/
structure CasWaitState where
  mem : Int
  timeout : Int
  returned : Bool
deriving DecidableEq

/-- State at entry of `cas_wait`: `int timeout = 1;` and the call has
not returned. -/
def casWaitInit (mem : Int) : CasWaitState :=
  { mem := mem, timeout := 1, returned := false }

/-- One iteration of the `while (1)` loop of `cas_wait`, with the
global `cas` pointer passed as an optional provider (`none` models
`cas == NULL`): if a provider is installed, attempt the
compare-and-swap and return on success; otherwise (and on failure)
take a nap of the current `timeout` and update it. -/
def casWaitStep (cas : Option CasProvider) (old repl : Int)
    (s : CasWaitState) : CasWaitState :=
  if s.returned then s
  else
    match cas with
    | some c =>
        let r := c s.mem old repl
        if r.1 = old then { s with mem := r.2, returned := true }
        else { mem := r.2, timeout := nextTimeout s.timeout, returned := false }
    | none => { s with timeout := nextTimeout s.timeout }

/-- `n` iterations of the `cas_wait` loop. -/
def casWaitIter (cas : Option CasProvider) (old repl : Int)
    (s : CasWaitState) : Nat → CasWaitState
  | 0 => s
  | n + 1 => casWaitStep cas old repl (casWaitIter cas old repl s n)

/-! ## Pool globals: `launch_threads`, `add_task`, `reset_after_fork` -/

/-- A task descriptor (`struct Task`): a function reference and its
four opaque pointer arguments, all modelled as addresses. -/
structure Task where
  func : Nat
  args : Nat
  dims : Nat
  steps : Nat
  data : Nat
deriving DecidableEq

/-- A zero-filled task, as produced by `memset(queues, 0, sz)`. -/
def zeroTask : Task := ⟨0, 0, 0, 0, 0⟩

/-- A worker slot (`struct Queue`): the atomic lock state and the task
mailbox. -/
structure Queue where
  lock : QState
  task : Task
deriving DecidableEq

/-- A zero-filled slot: lock `IDLE` (the zero state), task zeroed. -/
def zeroQueue : Queue := ⟨QState.IDLE, zeroTask⟩

/-- The module globals of `workqueue.c`: the `queues` pointer (`none`
models NULL), `queue_count`, `queue_pivot`, the identities of the
worker threads spawned so far, and whether the malloc'd slot block is
currently allocated (`storageLive`), so that `free` is observable. -/
structure Globals where
  queues : Option (List Queue)
  queue_count : Nat
  queue_pivot : Nat
  threads : List Nat
  storageLive : Bool
deriving DecidableEq

/-- Globals at process start: `queues = NULL`, counts zero, no worker
threads, no slot block allocated. -/
def initGlobals : Globals :=
  { queues := none, queue_count := 0, queue_pivot := 0,
    threads := [], storageLive := false }

/-- `launch_threads(count)`: if `queues` is NULL, malloc the slot
array, zero it, record the count and spawn `count` worker threads
(one per slot); otherwise do nothing.  `mallocOk` is the outcome of
`malloc`; when it fails the returned pointer is NULL and the
subsequent `memset` writes through NULL, which is modelled as a fatal
abort (`Except.error ()`): it happens before any slot is initialised
and before any thread is spawned. -/
def launch_threads (mallocOk : Bool) (count : Nat) (g : Globals) :
    Except Unit Globals :=
  match g.queues with
  | some _ => Except.ok g
  | none =>
      if mallocOk then
        Except.ok
          { queues := some (List.replicate count zeroQueue),
            queue_count := count,
            queue_pivot := g.queue_pivot,
            threads := g.threads ++ List.range count,
            storageLive := true }
      else Except.error ()

/-- `add_task(fn, args, dims, steps, data)`: store the task in the
slot at `queue_pivot`, then advance the pivot, wrapping to zero when
it reaches `queue_count`.  The C code dereferences `queues`
unconditionally; the `none` branch (NULL pointer) is outside the
usage contract and leaves the state unchanged here. -/
def add_task (fn args dims steps data : Nat) (g : Globals) : Globals :=
  match g.queues with
  | none => g
  | some qs =>
      let t : Task := ⟨fn, args, dims, steps, data⟩
      let qs' := qs.set g.queue_pivot
        { (qs.getD g.queue_pivot zeroQueue) with task := t }
      let piv := g.queue_pivot + 1
      { g with
        queues := some qs',
        queue_pivot := if piv = g.queue_count then 0 else piv }

/-- A sequence of `add_task` calls, one per listed task descriptor. -/
def addTasks : List Task → Globals → Globals
  | [], g => g
  | t :: ts, g => addTasks ts (add_task t.func t.args t.dims t.steps t.data g)

/-- `reset_after_fork`: `free(queues); queues = NULL;` — the slot
block is deallocated and the handle cleared. -/
def reset_after_fork (g : Globals) : Globals :=
  { g with queues := none, storageLive := false }

/-- The globals right after a successful `launch_threads count` call
on a fresh process: `count` zeroed slots, `count` worker threads, the
slot block live.  (`freshPool_eq_launch` below ties this to
`launch_threads`.) -/
def freshPool (count : Nat) : Globals :=
  { queues := some (List.replicate count zeroQueue),
    queue_count := count,
    queue_pivot := 0,
    threads := List.range count,
    storageLive := true }

/-! ## The dispatch protocol as a small-step transition system

One driver thread runs `ready()` followed by `synchronize()`; one
worker per slot runs the `thread_worker` loop.  With a valid (atomic)
CAS provider installed, each `cas_wait(&q->lock, old, new)` call is a
transition that blocks until `lock = old` and then atomically sets
`lock := new`, which is modelled as a guarded small step. -/

/-- One pending `cas_wait` call of the driver: `dready i` is
`cas_wait(&queues[i].lock, IDLE, READY)` from the loop in `ready()`,
`dsync i` is `cas_wait(&queues[i].lock, DONE, IDLE)` from the loop in
`synchronize()`. -/
inductive DOp where
  | dready (i : Nat)
  | dsync (i : Nat)
deriving DecidableEq

/-- The driver's remaining work for one full round over `N` slots:
all of `ready()` (slots 0..N-1 in order), then all of
`synchronize()` (slots 0..N-1 in order). -/
def fullProg (N : Nat) : List DOp :=
  (List.range N).map DOp.dready ++ (List.range N).map DOp.dsync

/-- Position of a worker thread inside its `thread_worker` loop:
blocked in `cas_wait(READY, RUNNING)`, about to invoke the claimed
task, or blocked in `cas_wait(RUNNING, DONE)`. -/
inductive WPhase where
  | waitReady
  | exec
  | waitDone
deriving DecidableEq

/-- A configuration of the running dispatcher: slot count, each
slot's lock state and stored task, each worker's loop position, the
driver's remaining operations, and the log of tasks executed so far
(each entry records the function reference invoked together with its
four stored arguments). -/
structure Config where
  N : Nat
  lock : Nat → QState
  taskOf : Nat → Task
  wphase : Nat → WPhase
  dprog : List DOp
  log : List Task

/-- Pointwise update of a map, used for writes to one slot. -/
def upd {α : Type} (f : Nat → α) (i : Nat) (a : α) : Nat → α :=
  fun j => if j = i then a else f j

/-- One atomic step of the dispatcher protocol: either the driver's
next `cas_wait` fires, or some worker's blocked `cas_wait` fires, or
a worker that has claimed its slot invokes the stored task. -/
inductive Step : Config → Config → Prop where
  | driver_ready (c : Config) (i : Nat) (rest : List DOp)
      (hprog : c.dprog = DOp.dready i :: rest)
      (hlock : c.lock i = QState.IDLE) :
      Step c { c with lock := upd c.lock i QState.READY, dprog := rest }
  | driver_sync (c : Config) (i : Nat) (rest : List DOp)
      (hprog : c.dprog = DOp.dsync i :: rest)
      (hlock : c.lock i = QState.DONE) :
      Step c { c with lock := upd c.lock i QState.IDLE, dprog := rest }
  | worker_claim (c : Config) (i : Nat) (hi : i < c.N)
      (hph : c.wphase i = WPhase.waitReady)
      (hlock : c.lock i = QState.READY) :
      Step c { c with lock := upd c.lock i QState.RUNNING,
                      wphase := upd c.wphase i WPhase.exec }
  | worker_exec (c : Config) (i : Nat) (hi : i < c.N)
      (hph : c.wphase i = WPhase.exec) :
      Step c { c with wphase := upd c.wphase i WPhase.waitDone,
                      log := c.log ++ [c.taskOf i] }
  | worker_done (c : Config) (i : Nat) (hi : i < c.N)
      (hph : c.wphase i = WPhase.waitDone)
      (hlock : c.lock i = QState.RUNNING) :
      Step c { c with lock := upd c.lock i QState.DONE,
                      wphase := upd c.wphase i WPhase.waitReady }

/-- Finitely many protocol steps. -/
def Steps : Config → Config → Prop := Relation.ReflTransGen Step

/-- Configuration at the start of a round: a freshly launched pool of
`N` slots into which the tasks `ts` have been submitted by
`add_task`, every worker parked at the top of its loop, the driver
about to run `ready()` then `synchronize()`, nothing executed yet. -/
def initConfig (N : Nat) (ts : List Task) : Config :=
  { N := N,
    lock := fun i =>
      (((addTasks ts (freshPool N)).queues.getD []).getD i zeroQueue).lock,
    taskOf := fun i =>
      (((addTasks ts (freshPool N)).queues.getD []).getD i zeroQueue).task,
    wphase := fun _ => WPhase.waitReady,
    dprog := fullProg N,
    log := [] }

/-- Lock state of a slot whose per-round progress is `p`
(0 = untouched, 1 = readied, 2 = claimed, 3 = executed, 4 = done,
5 = recycled). -/
def lockOf : Nat → QState
  | 0 => .IDLE
  | 1 => .READY
  | 2 => .RUNNING
  | 3 => .RUNNING
  | 4 => .DONE
  | _ => .IDLE

/-- Worker loop position of a slot whose per-round progress is `p`. -/
def phaseOf : Nat → WPhase
  | 2 => .exec
  | 3 => .waitDone
  | _ => .waitReady

/-- Protocol invariant for one round over `N` slots holding tasks
`T`: the driver has consumed `m` operations of `fullProg N`, each
slot `i` sits at progress `p i` consistent with its lock and its
worker's position, progress agrees with how far the driver has come,
and the log consists of the tasks of exactly the slots that have
reached the execution point, once each. -/
def Inv (N : Nat) (T : Nat → Task) (c : Config) : Prop :=
  c.N = N ∧ (∀ i, c.taskOf i = T i) ∧
  ∃ m : Nat, ∃ p : Nat → Nat, ∃ ex : List Nat,
    m ≤ 2 * N ∧
    c.dprog = (fullProg N).drop m ∧
    (∀ i, i < N → p i ≤ 5) ∧
    (∀ i, i < N → c.lock i = lockOf (p i)) ∧
    (∀ i, i < N → c.wphase i = phaseOf (p i)) ∧
    (∀ i, i < N → (1 ≤ p i ↔ i < m)) ∧
    (∀ i, i < N → (p i = 5 ↔ N + i < m)) ∧
    ex.Nodup ∧
    (∀ i, i ∈ ex ↔ i < N ∧ 3 ≤ p i) ∧
    c.log = ex.map T

end Workqueue

namespace Hashwrap

/-! ## The hash-caching wrapper (`_hashwrap.c`) -/

/-- A Python object as the wrapper type sees it: either a
non-wrapper host object carrying its identity and the hash value the
host's `PyObject_Hash` computes for it, or a `WrapperObject` holding
the wrapped object and the `hash` cache field (`-1` = not yet
computed, the CPython error/sentinel value). -/
inductive PyObj where
  | plain (id : Nat) (hashVal : Int)
  | wrapper (wrapped : PyObj) (cachedHash : Int)
deriving DecidableEq

/-- The value `PyObject_Hash` returns for an object, disregarding
mutation of caches: a plain object's host hash, and for a wrapper
object the cached value if present, else the wrapped object's hash
(`wrapper_hash`). -/
def trueHash : PyObj → Int
  | .plain _ h => h
  | .wrapper w c => if c = -1 then trueHash w else c

/-- `PyObject_Hash` with the cache mutation of `wrapper_hash` made
explicit: returns the hash value, the (possibly cache-updated)
object, and how many times a wrapped object's hash was actually
(re)computed during the call. -/
def pyObjectHash : PyObj → Int × PyObj × Nat
  | .plain i h => (h, .plain i h, 0)
  | .wrapper w c =>
      if c = -1 then
        let r := pyObjectHash w
        (r.1, .wrapper r.2.1 r.1, r.2.2 + 1)
      else (c, .wrapper w c, 0)

/-- `hashwrap_make_wrapper`: if the argument is already a wrapper,
return that very object; otherwise build a fresh wrapper with the
hash cache unset (`obj->hash = -1`). -/
def hashwrap_make_wrapper (arg : PyObj) : PyObj :=
  match arg with
  | .wrapper w c => .wrapper w c
  | .plain i h => .wrapper (.plain i h) (-1)

/-- Repeated hash calls on one object, threading the cache updates:
returns the list of (hash value, number of underlying hash
computations) per call, and the final object. -/
def hashCalls : PyObj → Nat → List (Int × Nat) × PyObj
  | o, 0 => ([], o)
  | o, n + 1 =>
      let r := pyObjectHash o
      let rest := hashCalls r.2.1 n
      ((r.1, r.2.2) :: rest.1, rest.2)

end Hashwrap

namespace Workqueue

/-! ## Theorems about `cas_wait` -/

/-- C4: if no CAS provider has been installed (`cas == NULL`), a
`cas_wait` call has not returned after any number of loop
iterations, and the shared state integer is unchanged. -/
theorem cas_wait_no_provider_never_returns (mem old repl : Int) (n : Nat) :
    (casWaitIter none old repl (casWaitInit mem) n).returned = false ∧
    (casWaitIter none old repl (casWaitInit mem) n).mem = mem := by
  induction n with
  | zero => exact ⟨rfl, rfl⟩
  | succ n ih =>
      obtain ⟨h1, h2⟩ := ih
      simp [casWaitIter, casWaitStep, h1, h2]

/-- A returned `cas_wait` state is fixed by further iterations. -/
theorem casWaitStep_returned (cas : Option CasProvider) (old repl : Int)
    (s : CasWaitState) (h : s.returned = true) :
    casWaitStep cas old repl s = s := by
  simp [casWaitStep, h]

/-- While a `cas_wait` call has not yet returned, its `timeout` after
`k` loop iterations is exactly `min (2 ^ k) MAX_WAIT_TIME`. -/
theorem casWaitIter_timeout (cas : Option CasProvider) (old repl mem : Int)
    (k : Nat)
    (h : (casWaitIter cas old repl (casWaitInit mem) k).returned = false) :
    (casWaitIter cas old repl (casWaitInit mem) k).timeout =
      min ((2 : Int) ^ k) MAX_WAIT_TIME := by
  induction k with
  | zero =>
      norm_num [casWaitIter, casWaitInit, MAX_WAIT_TIME]
  | succ k ih =>
      have hk : (casWaitIter cas old repl (casWaitInit mem) k).returned = false := by
        by_contra hc
        rw [Bool.not_eq_false] at hc
        rw [casWaitIter, casWaitStep_returned cas old repl _ hc] at h
        rw [h] at hc
        exact Bool.false_ne_true hc
      have ht := ih hk
      have hmin : nextTimeout (min ((2 : Int) ^ k) MAX_WAIT_TIME) =
          min ((2 : Int) ^ (k + 1)) MAX_WAIT_TIME := by
        have h0 : (0 : Int) < 2 ^ k := pow_pos (by norm_num) k
        have h2 : (2 : Int) ^ (k + 1) = 2 * 2 ^ k := by ring
        rw [h2]
        generalize (2 : Int) ^ k = x at h0 ⊢
        simp only [nextTimeout, MAX_WAIT_TIME]
        split_ifs with hcond <;> omega
      rw [casWaitIter] at h ⊢
      rcases cas with _ | c
      · simp only [casWaitStep, hk, Bool.false_eq_true, if_false] at h ⊢
        rw [ht, hmin]
      · simp only [casWaitStep, hk, Bool.false_eq_true, if_false] at h ⊢
        by_cases hr : (c (casWaitIter (some c) old repl (casWaitInit mem) k).mem
            old repl).1 = old
        · rw [if_pos hr] at h
          exact absurd h (by simp)
        · rw [if_neg hr] at h ⊢
          rw [ht, hmin]

/-- C5: the sleep duration of the n-th failed attempt of `cas_wait`
(n ≥ 1) — the value of `timeout` after the first n-1 iterations all
failed to return — is exactly `min (2 ^ (n-1)) MAX_WAIT_TIME`: it
starts at 1, doubles after every failed attempt, and is capped at
20000 without ever overflowing. -/
theorem cas_wait_backoff_formula (cas : Option CasProvider) (old repl mem : Int)
    (n : Nat) (_hn : 1 ≤ n)
    (hfail : (casWaitIter cas old repl (casWaitInit mem) (n - 1)).returned = false) :
    (casWaitIter cas old repl (casWaitInit mem) (n - 1)).timeout =
      min ((2 : Int) ^ (n - 1)) MAX_WAIT_TIME :=
  casWaitIter_timeout cas old repl mem (n - 1) hfail

/-- Witness for C5 at n = 3 with no provider installed: the third
attempt sleeps `min (2 ^ 2) 20000 = 4` time-units. -/
theorem cas_wait_backoff_formula_witness :
    (casWaitIter none 0 1 (casWaitInit 0) (3 - 1)).timeout =
      min ((2 : Int) ^ (3 - 1)) MAX_WAIT_TIME :=
  cas_wait_backoff_formula none 0 1 0 3 (by norm_num) (by decide)

/-! ## Theorems about the pool globals -/

/-- Launching on a fresh process yields exactly `freshPool count`. -/
theorem freshPool_eq_launch (count : Nat) :
    launch_threads true count initGlobals = Except.ok (freshPool count) := rfl

/-- C6 counterexample: on a launched pool of 2 slots,
`reset_after_fork` does not leave the slot storage allocated — the
claim that the memory is left unfreed fails, because the code calls
`free(queues)` before clearing the handle. -/
theorem reset_after_fork_counterexample :
    ¬ ((reset_after_fork (freshPool 2)).queues = none ∧
       (reset_after_fork (freshPool 2)).storageLive = true) := by
  decide

/-- C6 amended: `reset_after_fork` clears the pool handle AND frees
the slot storage: afterwards the handle is null and the block is
deallocated. -/
theorem reset_after_fork_clears_and_frees (g : Globals) :
    (reset_after_fork g).queues = none ∧
    (reset_after_fork g).storageLive = false :=
  ⟨rfl, rfl⟩

/-- C7: `launch_threads` is idempotent once a pool exists: if
`queues` is non-null, a second call — with any count and any malloc
outcome — returns the globals unchanged: same slot array, same slot
count, same worker threads. -/
theorem launch_threads_idempotent (g : Globals) (qs : List Queue)
    (n : Nat) (ok : Bool) (h : g.queues = some qs) :
    launch_threads ok n g = Except.ok g := by
  unfold launch_threads
  rw [h]

/-- Witness for C7: relaunching an existing 2-slot pool with count 5
changes nothing. -/
theorem launch_threads_idempotent_witness :
    launch_threads true 5 (freshPool 2) = Except.ok (freshPool 2) :=
  launch_threads_idempotent (freshPool 2) (List.replicate 2 zeroQueue) 5 true rfl

/-- C8: if allocation of the slot array fails during launch, pool
construction aborts fatally (the `memset` through the null pointer
faults): no globals result, so no slot is initialised and no worker
thread is started. -/
theorem launch_threads_alloc_failure_aborts (g : Globals) (n : Nat)
    (h : g.queues = none) :
    launch_threads false n g = Except.error () ∧
    ∀ g' : Globals, launch_threads false n g ≠ Except.ok g' := by
  refine ⟨?_, ?_⟩
  · unfold launch_threads
    rw [h]
    simp
  · intro g' hcontra
    unfold launch_threads at hcontra
    rw [h] at hcontra
    simp at hcontra

/-- Witness for C8: failed allocation on a fresh process aborts the
launch. -/
theorem launch_threads_alloc_failure_aborts_witness :
    launch_threads false 4 initGlobals = Except.error () :=
  (launch_threads_alloc_failure_aborts initGlobals 4 rfl).1

/-! ## Theorems about `add_task` and the round-robin cursor -/

/-- Reading back the element just written by `List.set`. -/
theorem getD_set_self {α : Type} (l : List α) (i : Nat) (a d : α)
    (h : i < l.length) : (l.set i a).getD i d = a := by
  rw [List.getD_eq_getElem?_getD, List.getElem?_set_self h]
  rfl

/-- Reading any other element after a `List.set`. -/
theorem getD_set_ne {α : Type} (l : List α) (i j : Nat) (a d : α)
    (h : i ≠ j) : (l.set i a).getD j d = l.getD j d := by
  rw [List.getD_eq_getElem?_getD, List.getElem?_set_ne h,
    ← List.getD_eq_getElem?_getD]

/-- Effect of a sequence of `add_task` calls that fits between the
current cursor position and the end of the slot array: the slot
count, threads and storage are untouched, every slot's lock is
untouched, slots outside the written window are untouched, slot
`pivot + i` receives the i-th task, and the cursor advances by the
number of calls, wrapping to 0 exactly when it reaches the slot
count. -/
theorem addTasks_spec (ts : List Task) :
    ∀ (g : Globals) (qs : List Queue),
    g.queues = some qs →
    g.queue_count = qs.length →
    g.queue_pivot + ts.length ≤ qs.length →
    ∃ qs', (addTasks ts g).queues = some qs' ∧
      qs'.length = qs.length ∧
      (addTasks ts g).queue_count = g.queue_count ∧
      (addTasks ts g).threads = g.threads ∧
      (addTasks ts g).storageLive = g.storageLive ∧
      ((addTasks ts g).queue_pivot =
        if g.queue_pivot + ts.length = qs.length ∧ ts ≠ [] then 0
        else g.queue_pivot + ts.length) ∧
      (∀ i, (qs'.getD i zeroQueue).lock = (qs.getD i zeroQueue).lock) ∧
      (∀ i, i < g.queue_pivot → qs'.getD i zeroQueue = qs.getD i zeroQueue) ∧
      (∀ i, g.queue_pivot + ts.length ≤ i →
        qs'.getD i zeroQueue = qs.getD i zeroQueue) ∧
      (∀ i, g.queue_pivot ≤ i → i < g.queue_pivot + ts.length →
        (qs'.getD i zeroQueue).task = ts.getD (i - g.queue_pivot) zeroTask) := by
  induction ts with
  | nil =>
      intro g qs hq hc hle
      refine ⟨qs, hq, rfl, rfl, rfl, rfl, ?_, ?_, ?_, ?_, ?_⟩
      · simp [addTasks]
      · intro i; rfl
      · intro i _; rfl
      · intro i _; rfl
      · intro i h1 h2
        simp only [List.length_nil] at h2
        omega
  | cons t ts ih =>
      intro g qs hq hc hle
      have hP : g.queue_pivot < qs.length := by
        simp only [List.length_cons] at hle; omega
      set P := g.queue_pivot with hPdef
      have hstep : addTasks (t :: ts) g =
          addTasks ts (add_task t.func t.args t.dims t.steps t.data g) := rfl
      set q1 : Queue :=
        { (qs.getD P zeroQueue) with task := ⟨t.func, t.args, t.dims, t.steps, t.data⟩ }
        with hq1
      have ht : (⟨t.func, t.args, t.dims, t.steps, t.data⟩ : Task) = t := rfl
      have hg1 : add_task t.func t.args t.dims t.steps t.data g =
          { g with queues := some (qs.set P q1),
                   queue_pivot := if P + 1 = g.queue_count then 0 else P + 1 } := by
        unfold add_task
        rw [hq]
      by_cases hlast : P + 1 = qs.length
      · -- the first call wraps the cursor; no further calls remain
        have hts : ts = [] := by
          simp only [List.length_cons] at hle
          cases ts with
          | nil => rfl
          | cons a l => simp only [List.length_cons] at hle; omega
        subst hts
        have hg1' : add_task t.func t.args t.dims t.steps t.data g =
            { queues := some (qs.set P q1), queue_count := g.queue_count,
              queue_pivot := 0, threads := g.threads,
              storageLive := g.storageLive } := by
          rw [hg1]
          have : (if P + 1 = g.queue_count then 0 else P + 1) = 0 := by
            rw [hc, if_pos hlast]
          rw [this]
        rw [hstep, hg1']
        refine ⟨qs.set P q1, rfl, by simp, rfl, rfl, rfl, ?_, ?_, ?_, ?_, ?_⟩
        · have hcond : P + ([t] : List Task).length = qs.length ∧
              ([t] : List Task) ≠ [] := ⟨by simpa using hlast, by simp⟩
          rw [if_pos hcond]
          rfl
        · intro i
          by_cases hiP : i = P
          · subst hiP
            rw [getD_set_self qs P q1 zeroQueue hP, hq1]
          · rw [getD_set_ne qs P i q1 zeroQueue (fun hPe => hiP hPe.symm)]
        · intro i hi
          exact getD_set_ne qs P i q1 zeroQueue (by omega)
        · intro i hi
          simp only [List.length_cons, List.length_nil] at hi
          exact getD_set_ne qs P i q1 zeroQueue (by omega)
        · intro i h1 h2
          simp only [List.length_cons, List.length_nil] at h2
          have hiP : i = P := by omega
          subst hiP
          rw [getD_set_self qs P q1 zeroQueue hP, hq1, ht]
          simp
      · -- the cursor advances without wrapping; recurse on the rest
        have hpiv1 : (add_task t.func t.args t.dims t.steps t.data g).queue_pivot
            = P + 1 := by
          rw [hg1]
          show (if P + 1 = g.queue_count then 0 else P + 1) = P + 1
          rw [hc, if_neg hlast]
        obtain ⟨qs', hq', hlen', hcnt', hthr', hsto', hpiv', hlock', hpre', hpost', hmid'⟩ :=
          ih (add_task t.func t.args t.dims t.steps t.data g) (qs.set P q1)
            (by rw [hg1]) (by rw [hg1]; simpa using hc) (by
              rw [hpiv1]
              simp only [List.length_set, List.length_cons] at hle ⊢
              omega)
        rw [hpiv1] at hpiv' hpre' hpost' hmid'
        rw [hstep]
        have hlen1 : (qs.set P q1).length = qs.length := by simp
        refine ⟨qs', hq', by rw [hlen', hlen1], by rw [hcnt', hg1], by rw [hthr', hg1],
          by rw [hsto', hg1], ?_, ?_, ?_, ?_, ?_⟩
        · rw [hpiv', hlen1]
          by_cases hend : P + 1 + ts.length = qs.length
          · have htsne : ts ≠ [] := by
              intro h0
              subst h0
              simp only [List.length_nil, Nat.add_zero] at hend
              exact hlast hend
            have hcond2 : P + (t :: ts).length = qs.length ∧ (t :: ts) ≠ [] := by
              refine ⟨?_, by simp⟩
              simp only [List.length_cons]
              omega
            rw [if_pos ⟨hend, htsne⟩, if_pos hcond2]
          · have h1 : ¬(P + 1 + ts.length = qs.length ∧ ts ≠ []) := by
              rintro ⟨he, -⟩; exact hend he
            have h2 : ¬(P + (t :: ts).length = qs.length ∧ (t :: ts) ≠ []) := by
              rintro ⟨he, -⟩
              apply hend
              simp only [List.length_cons] at he
              omega
            rw [if_neg h1, if_neg h2]
            simp only [List.length_cons]
            omega
        · intro i
          rw [hlock' i]
          by_cases hiP : i = P
          · subst hiP
            rw [getD_set_self qs P q1 zeroQueue hP, hq1]
          · rw [getD_set_ne qs P i q1 zeroQueue (fun hPe => hiP hPe.symm)]
        · intro i hi
          rw [hpre' i (by omega), getD_set_ne qs P i q1 zeroQueue (by omega)]
        · intro i hi
          simp only [List.length_cons] at hi
          rw [hpost' i (by omega), getD_set_ne qs P i q1 zeroQueue (by omega)]
        · intro i h1 h2
          simp only [List.length_cons] at h2
          by_cases hiP : i = P
          · subst hiP
            rw [hpre' P (by omega), getD_set_self qs P q1 zeroQueue hP, hq1, ht]
            simp
          · have h1' : P + 1 ≤ i := by omega
            rw [hmid' i h1' (by omega)]
            have hsub : i - P = (i - (P + 1)) + 1 := by omega
            rw [hsub, List.getD_cons_succ]

/-- C2: starting from a fresh (zero) round-robin cursor, N
consecutive `add_task` calls (N = slot count) place the i-th
submitted task in slot `i % N`, and afterwards the cursor is back at
its starting position 0. -/
theorem add_task_round_robin (g : Globals) (qs : List Queue) (ts : List Task)
    (hq : g.queues = some qs)
    (hc : g.queue_count = qs.length)
    (hp : g.queue_pivot = 0)
    (hl : ts.length = qs.length) :
    (addTasks ts g).queue_pivot = 0 ∧
    ∃ qs', (addTasks ts g).queues = some qs' ∧
      ∀ i, i < ts.length →
        (qs'.getD (i % qs.length) zeroQueue).task = ts.getD i zeroTask := by
  obtain ⟨qs', hq', hlen', -, -, -, hpiv', -, -, -, hmid'⟩ :=
    addTasks_spec ts g qs hq hc (by omega)
  constructor
  · rw [hpiv', hp]
    cases ts with
    | nil =>
        simp only [List.length_nil] at hl ⊢
        rw [if_neg (by simp)]
    | cons a l =>
        rw [if_pos ⟨by omega, by simp⟩]
  · refine ⟨qs', hq', ?_⟩
    intro i hi
    have hiN : i < qs.length := by omega
    rw [Nat.mod_eq_of_lt hiN]
    have := hmid' i (by omega) (by omega)
    rw [hp] at this
    simpa using this

/-- Witness for C2: two concrete tasks into a fresh 2-slot pool; slot
`1 % 2` receives task 1 and the cursor returns to 0. -/
theorem add_task_round_robin_witness :
    (addTasks [⟨1, 2, 3, 4, 5⟩, ⟨6, 7, 8, 9, 10⟩] (freshPool 2)).queue_pivot = 0 :=
  (add_task_round_robin (freshPool 2) (List.replicate 2 zeroQueue)
    [⟨1, 2, 3, 4, 5⟩, ⟨6, 7, 8, 9, 10⟩] rfl rfl rfl rfl).1

/-! ## Theorems about the dispatch protocol -/

/-- C3: every state transition any dispatcher step performs on any
slot's lock moves it to the successor of its current state in the
cycle Idle→Ready→Running→Done→Idle, so per slot the transition
sequence is exactly that cycle repeated. -/
theorem step_lock_follows_cycle (c c' : Config) (h : Step c c') (j : Nat)
    (hne : c'.lock j ≠ c.lock j) : c'.lock j = QState.next (c.lock j) := by
  cases h with
  | driver_ready i rest hprog hlock =>
      by_cases hji : j = i
      · subst hji
        show upd c.lock j QState.READY j = QState.next (c.lock j)
        rw [hlock]
        simp [upd, QState.next]
      · exact absurd (by simp [upd, hji]) hne
  | driver_sync i rest hprog hlock =>
      by_cases hji : j = i
      · subst hji
        show upd c.lock j QState.IDLE j = QState.next (c.lock j)
        rw [hlock]
        simp [upd, QState.next]
      · exact absurd (by simp [upd, hji]) hne
  | worker_claim i hi hph hlock =>
      by_cases hji : j = i
      · subst hji
        show upd c.lock j QState.RUNNING j = QState.next (c.lock j)
        rw [hlock]
        simp [upd, QState.next]
      · exact absurd (by simp [upd, hji]) hne
  | worker_exec i hi hph =>
      exact absurd rfl hne
  | worker_done i hi hph hlock =>
      by_cases hji : j = i
      · subst hji
        show upd c.lock j QState.DONE j = QState.next (c.lock j)
        rw [hlock]
        simp [upd, QState.next]
      · exact absurd (by simp [upd, hji]) hne

/-- Witness for C3: a concrete `ready()` step on a one-slot pool
moves the lock from `IDLE` to its successor `READY`. -/
theorem step_lock_follows_cycle_witness :
    ({ N := 1, lock := upd (fun _ => QState.IDLE) 0 QState.READY,
       taskOf := fun _ => zeroTask, wphase := fun _ => WPhase.waitReady,
       dprog := [], log := [] } : Config).lock 0 =
      QState.next (({ N := 1, lock := fun _ => QState.IDLE,
                      taskOf := fun _ => zeroTask,
                      wphase := fun _ => WPhase.waitReady,
                      dprog := [DOp.dready 0], log := [] } : Config).lock 0) :=
  step_lock_follows_cycle
    { N := 1, lock := fun _ => QState.IDLE, taskOf := fun _ => zeroTask,
      wphase := fun _ => WPhase.waitReady, dprog := [DOp.dready 0], log := [] }
    _ (Step.driver_ready _ 0 [] rfl rfl) 0 (by decide)

/-- The driver program for a round over `N` slots has `2 * N`
operations. -/
theorem fullProg_length (N : Nat) : (fullProg N).length = 2 * N := by
  simp [fullProg]
  omega

/-- Shape of the driver program after `m < 2 * N` consumed
operations: the next operation readies slot `m` (first phase) or
recycles slot `m - N` (second phase). -/
theorem fullProg_drop_lt (N m : Nat) (h : m < 2 * N) :
    (fullProg N).drop m =
      (if m < N then DOp.dready m else DOp.dsync (m - N)) ::
        (fullProg N).drop (m + 1) := by
  have hlen : m < (fullProg N).length := by rw [fullProg_length]; omega
  rw [List.drop_eq_getElem_cons hlen]
  congr 1
  by_cases hm : m < N
  · rw [if_pos hm]
    have hm' : m < ((List.range N).map DOp.dready).length := by simp [hm]
    simp only [fullProg]
    rw [List.getElem_append_left hm', List.getElem_map]
    simp
  · rw [if_neg hm]
    have hm' : ((List.range N).map DOp.dready).length ≤ m := by
      simp only [List.length_map, List.length_range]
      omega
    simp only [fullProg]
    rw [List.getElem_append_right hm', List.getElem_map]
    simp

/-- A slot whose lock shows `READY` has progress 1. -/
theorem lockOf_ready {q : Nat} (hq : q ≤ 5) (h : lockOf q = QState.READY) :
    q = 1 := by
  interval_cases q <;> simp_all [lockOf]

/-- A slot whose lock shows `DONE` has progress 4. -/
theorem lockOf_done {q : Nat} (hq : q ≤ 5) (h : lockOf q = QState.DONE) :
    q = 4 := by
  interval_cases q <;> simp_all [lockOf]

/-- A slot whose worker is about to run the task has progress 2. -/
theorem phaseOf_exec {q : Nat} (hq : q ≤ 5) (h : phaseOf q = WPhase.exec) :
    q = 2 := by
  interval_cases q <;> simp_all [phaseOf]

/-- A slot whose worker is waiting to mark completion has progress 3. -/
theorem phaseOf_waitDone {q : Nat} (hq : q ≤ 5)
    (h : phaseOf q = WPhase.waitDone) : q = 3 := by
  interval_cases q <;> simp_all [phaseOf]

/-- Every `getD` read of a zero-filled slot array is a zero slot. -/
theorem getD_replicate_zeroQueue (N i : Nat) :
    (List.replicate N zeroQueue).getD i zeroQueue = zeroQueue := by
  rw [List.getD_eq_getElem?_getD, List.getElem?_replicate]
  split <;> rfl

/-- The start-of-round configuration: all locks idle, and the first
`ts.length` slots hold exactly the submitted tasks. -/
theorem initConfig_spec (N : Nat) (ts : List Task) (hk : ts.length ≤ N) :
    (∀ i, (initConfig N ts).lock i = QState.IDLE) ∧
    (∀ i, i < ts.length → (initConfig N ts).taskOf i = ts.getD i zeroTask) := by
  obtain ⟨qs', hq', hlen', -, -, -, -, hlock', -, -, hmid'⟩ :=
    addTasks_spec ts (freshPool N) (List.replicate N zeroQueue) rfl
      (by simp [freshPool]) (by simp [freshPool]; omega)
  constructor
  · intro i
    show (((addTasks ts (freshPool N)).queues.getD []).getD i zeroQueue).lock =
      QState.IDLE
    rw [hq']
    show (qs'.getD i zeroQueue).lock = QState.IDLE
    rw [hlock' i, getD_replicate_zeroQueue]
    rfl
  · intro i hi
    show (((addTasks ts (freshPool N)).queues.getD []).getD i zeroQueue).task =
      ts.getD i zeroTask
    rw [hq']
    show (qs'.getD i zeroQueue).task = ts.getD i zeroTask
    have := hmid' i (by simp [freshPool]) (by simp [freshPool]; omega)
    simpa [freshPool] using this

/-- The invariant holds at the start of a round. -/
theorem inv_init (N : Nat) (ts : List Task) (hk : ts.length ≤ N) :
    Inv N (initConfig N ts).taskOf (initConfig N ts) := by
  obtain ⟨hlock, -⟩ := initConfig_spec N ts hk
  refine ⟨rfl, fun i => rfl, 0, fun _ => 0, [], by omega, rfl, ?_, ?_, ?_, ?_, ?_,
    List.nodup_nil, ?_, rfl⟩
  · intro i _
    show (0 : Nat) ≤ 5
    omega
  · intro i _
    rw [hlock i]
    rfl
  · intro i _; rfl
  · intro i _
    show 1 ≤ 0 ↔ i < 0
    omega
  · intro i _
    show (0 : Nat) = 5 ↔ N + i < 0
    omega
  · intro i
    simp

/-- The invariant is preserved by every protocol step. -/
theorem inv_step (N : Nat) (T : Nat → Task) (c c' : Config)
    (hinv : Inv N T c) (hstep : Step c c') : Inv N T c' := by
  obtain ⟨hN, hT, m, p, ex, hm, hprog, hp5, hlk, hwp, hrdy, hsyn, hnd, hmem, hlog⟩ := hinv
  cases hstep with
  | driver_ready i rest hpr hlock =>
      have heq : (fullProg N).drop m = DOp.dready i :: rest := by
        rw [← hprog, hpr]
      have hmlt : m < 2 * N := by
        by_contra hge
        push_neg at hge
        rw [List.drop_eq_nil_of_le (by rw [fullProg_length]; omega)] at heq
        exact List.noConfusion heq
      rw [fullProg_drop_lt N m hmlt] at heq
      by_cases hmN : m < N
      · rw [if_pos hmN] at heq
        injection heq with h1 h2
        injection h1 with h1
        subst h1
        have hpm : p m = 0 := by
          have h3 := hrdy m hmN
          omega
        refine ⟨hN, hT, m + 1, upd p m 1, ex, by omega, h2.symm, ?_, ?_, ?_, ?_, ?_,
          hnd, ?_, hlog⟩
        · intro j hj
          by_cases hji : j = m
          · subst hji; simp only [upd, eq_self_iff_true, if_true]; omega
          · simp only [upd, if_neg hji]; exact hp5 j hj
        · intro j hj
          show upd c.lock m QState.READY j = lockOf (upd p m 1 j)
          by_cases hji : j = m
          · subst hji; simp only [upd, eq_self_iff_true, if_true]; rfl
          · simp only [upd, if_neg hji]; exact hlk j hj
        · intro j hj
          show c.wphase j = phaseOf (upd p m 1 j)
          by_cases hji : j = m
          · subst hji
            simp only [upd, eq_self_iff_true, if_true]
            rw [hwp j hmN, hpm]
            rfl
          · simp only [upd, if_neg hji]; exact hwp j hj
        · intro j hj
          by_cases hji : j = m
          · subst hji; simp only [upd, eq_self_iff_true, if_true]; omega
          · simp only [upd, if_neg hji]
            have := hrdy j hj
            omega
        · intro j hj
          by_cases hji : j = m
          · subst hji; simp only [upd, eq_self_iff_true, if_true]; omega
          · simp only [upd, if_neg hji]
            have := hsyn j hj
            omega
        · intro j
          by_cases hji : j = m
          · subst hji
            simp only [upd, eq_self_iff_true, if_true]
            constructor
            · intro hin
              have h4 := (hmem j).mp hin
              omega
            · rintro ⟨-, h4⟩
              omega
          · simp only [upd, if_neg hji]; exact hmem j
      · rw [if_neg hmN] at heq
        exact absurd heq (by simp)
  | driver_sync i rest hpr hlock =>
      have heq : (fullProg N).drop m = DOp.dsync i :: rest := by
        rw [← hprog, hpr]
      have hmlt : m < 2 * N := by
        by_contra hge
        push_neg at hge
        rw [List.drop_eq_nil_of_le (by rw [fullProg_length]; omega)] at heq
        exact List.noConfusion heq
      rw [fullProg_drop_lt N m hmlt] at heq
      by_cases hmN : m < N
      · rw [if_pos hmN] at heq
        exact absurd heq (by simp)
      · rw [if_neg hmN] at heq
        push_neg at hmN
        injection heq with h1 h2
        injection h1 with h1
        subst h1
        have hkN : m - N < N := by omega
        have h4 : lockOf (p (m - N)) = QState.DONE := by
          rw [← hlk _ hkN]; exact hlock
        have hpk : p (m - N) = 4 := lockOf_done (hp5 _ hkN) h4
        refine ⟨hN, hT, m + 1, upd p (m - N) 5, ex, by omega, h2.symm, ?_, ?_, ?_,
          ?_, ?_, hnd, ?_, hlog⟩
        · intro j hj
          by_cases hji : j = m - N
          · subst hji; simp only [upd, eq_self_iff_true, if_true]; omega
          · simp only [upd, if_neg hji]; exact hp5 j hj
        · intro j hj
          show upd c.lock (m - N) QState.IDLE j = lockOf (upd p (m - N) 5 j)
          by_cases hji : j = m - N
          · subst hji; simp only [upd, eq_self_iff_true, if_true]; rfl
          · simp only [upd, if_neg hji]; exact hlk j hj
        · intro j hj
          show c.wphase j = phaseOf (upd p (m - N) 5 j)
          by_cases hji : j = m - N
          · subst hji
            simp only [upd, eq_self_iff_true, if_true]
            rw [hwp _ hkN, hpk]
            rfl
          · simp only [upd, if_neg hji]; exact hwp j hj
        · intro j hj
          by_cases hji : j = m - N
          · subst hji; simp only [upd, eq_self_iff_true, if_true]; omega
          · simp only [upd, if_neg hji]
            have := hrdy j hj
            omega
        · intro j hj
          by_cases hji : j = m - N
          · subst hji
            simp only [upd, eq_self_iff_true, if_true, true_iff]
            omega
          · simp only [upd, if_neg hji]
            have := hsyn j hj
            omega
        · intro j
          by_cases hji : j = m - N
          · subst hji
            simp only [upd, eq_self_iff_true, if_true]
            constructor
            · intro _
              exact ⟨hkN, by omega⟩
            · intro _
              exact (hmem _).mpr ⟨hkN, by omega⟩
          · simp only [upd, if_neg hji]; exact hmem j
  | worker_claim i hi hph2 hlock =>
      have hiN : i < N := by rw [← hN]; exact hi
      have h4 : lockOf (p i) = QState.READY := by
        rw [← hlk i hiN]; exact hlock
      have hpi : p i = 1 := lockOf_ready (hp5 i hiN) h4
      refine ⟨hN, hT, m, upd p i 2, ex, hm, hprog, ?_, ?_, ?_, ?_, ?_, hnd, ?_, hlog⟩
      · intro j hj
        by_cases hji : j = i
        · subst hji; simp only [upd, eq_self_iff_true, if_true]; omega
        · simp only [upd, if_neg hji]; exact hp5 j hj
      · intro j hj
        show upd c.lock i QState.RUNNING j = lockOf (upd p i 2 j)
        by_cases hji : j = i
        · subst hji; simp only [upd, eq_self_iff_true, if_true]; rfl
        · simp only [upd, if_neg hji]; exact hlk j hj
      · intro j hj
        show upd c.wphase i WPhase.exec j = phaseOf (upd p i 2 j)
        by_cases hji : j = i
        · subst hji; simp only [upd, eq_self_iff_true, if_true]; rfl
        · simp only [upd, if_neg hji]; exact hwp j hj
      · intro j hj
        by_cases hji : j = i
        · subst hji
          simp only [upd, eq_self_iff_true, if_true]
          have := hrdy j hj
          omega
        · simp only [upd, if_neg hji]; exact hrdy j hj
      · intro j hj
        by_cases hji : j = i
        · subst hji
          simp only [upd, eq_self_iff_true, if_true]
          have := hsyn j hj
          omega
        · simp only [upd, if_neg hji]; exact hsyn j hj
      · intro j
        by_cases hji : j = i
        · subst hji
          simp only [upd, eq_self_iff_true, if_true]
          constructor
          · intro hin
            have h5 := (hmem j).mp hin
            omega
          · rintro ⟨-, h5⟩
            omega
        · simp only [upd, if_neg hji]; exact hmem j
  | worker_exec i hi hph2 =>
      have hiN : i < N := by rw [← hN]; exact hi
      have h4 : phaseOf (p i) = WPhase.exec := by
        rw [← hwp i hiN]; exact hph2
      have hpi : p i = 2 := phaseOf_exec (hp5 i hiN) h4
      have hnotin : i ∉ ex := by
        intro hin
        have h5 := (hmem i).mp hin
        omega
      refine ⟨hN, hT, m, upd p i 3, ex ++ [i], hm, hprog, ?_, ?_, ?_, ?_, ?_, ?_, ?_, ?_⟩
      · intro j hj
        by_cases hji : j = i
        · subst hji; simp only [upd, eq_self_iff_true, if_true]; omega
        · simp only [upd, if_neg hji]; exact hp5 j hj
      · intro j hj
        show c.lock j = lockOf (upd p i 3 j)
        by_cases hji : j = i
        · subst hji
          simp only [upd, eq_self_iff_true, if_true]
          rw [hlk j hj, hpi]
          rfl
        · simp only [upd, if_neg hji]; exact hlk j hj
      · intro j hj
        show upd c.wphase i WPhase.waitDone j = phaseOf (upd p i 3 j)
        by_cases hji : j = i
        · subst hji; simp only [upd, eq_self_iff_true, if_true]; rfl
        · simp only [upd, if_neg hji]; exact hwp j hj
      · intro j hj
        by_cases hji : j = i
        · subst hji
          simp only [upd, eq_self_iff_true, if_true]
          have := hrdy j hj
          omega
        · simp only [upd, if_neg hji]; exact hrdy j hj
      · intro j hj
        by_cases hji : j = i
        · subst hji
          simp only [upd, eq_self_iff_true, if_true]
          have := hsyn j hj
          omega
        · simp only [upd, if_neg hji]; exact hsyn j hj
      · refine List.nodup_append.mpr ⟨hnd, by simp, ?_⟩
        intro a ha hb
        rw [List.mem_singleton] at hb
        subst hb
        exact hnotin ha
      · intro j
        rw [List.mem_append, List.mem_singleton]
        by_cases hji : j = i
        · subst hji
          simp only [upd, eq_self_iff_true, if_true]
          constructor
          · intro _
            exact ⟨hiN, by omega⟩
          · intro _
            exact Or.inr trivial
        · simp only [upd, if_neg hji]
          constructor
          · rintro (h5 | h5)
            · exact (hmem j).mp h5
            · exact absurd h5 hji
          · intro h5
            exact Or.inl ((hmem j).mpr h5)
      · show c.log ++ [c.taskOf i] = (ex ++ [i]).map T
        rw [List.map_append, ← hlog, hT i]
        rfl
  | worker_done i hi hph2 hlock =>
      have hiN : i < N := by rw [← hN]; exact hi
      have h4 : phaseOf (p i) = WPhase.waitDone := by
        rw [← hwp i hiN]; exact hph2
      have hpi : p i = 3 := phaseOf_waitDone (hp5 i hiN) h4
      refine ⟨hN, hT, m, upd p i 4, ex, hm, hprog, ?_, ?_, ?_, ?_, ?_, hnd, ?_, hlog⟩
      · intro j hj
        by_cases hji : j = i
        · subst hji; simp only [upd, eq_self_iff_true, if_true]; omega
        · simp only [upd, if_neg hji]; exact hp5 j hj
      · intro j hj
        show upd c.lock i QState.DONE j = lockOf (upd p i 4 j)
        by_cases hji : j = i
        · subst hji; simp only [upd, eq_self_iff_true, if_true]; rfl
        · simp only [upd, if_neg hji]; exact hlk j hj
      · intro j hj
        show upd c.wphase i WPhase.waitReady j = phaseOf (upd p i 4 j)
        by_cases hji : j = i
        · subst hji; simp only [upd, eq_self_iff_true, if_true]; rfl
        · simp only [upd, if_neg hji]; exact hwp j hj
      · intro j hj
        by_cases hji : j = i
        · subst hji
          simp only [upd, eq_self_iff_true, if_true]
          have := hrdy j hj
          omega
        · simp only [upd, if_neg hji]; exact hrdy j hj
      · intro j hj
        by_cases hji : j = i
        · subst hji
          simp only [upd, eq_self_iff_true, if_true]
          have := hsyn j hj
          omega
        · simp only [upd, if_neg hji]; exact hsyn j hj
      · intro j
        by_cases hji : j = i
        · subst hji
          simp only [upd, eq_self_iff_true, if_true]
          constructor
          · intro _
            exact ⟨hiN, by omega⟩
          · intro _
            exact (hmem j).mpr ⟨hiN, by omega⟩
        · simp only [upd, if_neg hji]; exact hmem j

/-- The invariant is preserved by any number of protocol steps. -/
theorem inv_steps (N : Nat) (T : Nat → Task) (c c' : Config)
    (hinv : Inv N T c) (hsteps : Steps c c') : Inv N T c' := by
  induction hsteps with
  | refl => exact hinv
  | tail _ hstep ih => exact inv_step N T _ _ ih hstep

/-- C1: with a valid CAS provider, for any task count `ts.length ≤ N`
(the slot count), every complete interleaved execution of a full
round — `add_task` for each submitted task on a freshly launched
pool, then `ready()`, then `synchronize()` — ends with every slot's
lock `IDLE` and every worker back at the top of its loop when
`synchronize()` returns, and the log of executed tasks (each invoked
with its four stored arguments) is a permutation of the `N` slots'
stored tasks, of which the first `ts.length` are exactly the
submitted ones — so each submitted task was executed exactly once. -/
theorem workqueue_full_round (N : Nat) (ts : List Task) (hk : ts.length ≤ N)
    (c : Config) (hsteps : Steps (initConfig N ts) c) (hdone : c.dprog = []) :
    (∀ i, i < N → c.lock i = QState.IDLE) ∧
    (∀ i, i < N → c.wphase i = WPhase.waitReady) ∧
    c.log.Perm ((List.range N).map (initConfig N ts).taskOf) ∧
    (∀ i, i < ts.length → (initConfig N ts).taskOf i = ts.getD i zeroTask) := by
  have hinv := inv_steps N (initConfig N ts).taskOf (initConfig N ts) c
    (inv_init N ts hk) hsteps
  obtain ⟨hN, hT, m, p, ex, hm, hprog, hp5, hlk, hwp, hrdy, hsyn, hnd, hmem, hlog⟩ := hinv
  have hm2 : m = 2 * N := by
    by_contra hne
    have hlt : m < 2 * N := by omega
    rw [hdone] at hprog
    rw [fullProg_drop_lt N m hlt] at hprog
    exact List.noConfusion hprog
  subst hm2
  have hp5' : ∀ i, i < N → p i = 5 := by
    intro i hi
    have := hsyn i hi
    omega
  refine ⟨?_, ?_, ?_, ?_⟩
  · intro i hi
    rw [hlk i hi, hp5' i hi]
    rfl
  · intro i hi
    rw [hwp i hi, hp5' i hi]
    rfl
  · have hperm : ex.Perm (List.range N) := by
      rw [List.perm_ext_iff_of_nodup hnd (List.nodup_range N)]
      intro a
      rw [List.mem_range, hmem a]
      constructor
      · rintro ⟨h1, -⟩
        exact h1
      · intro h1
        refine ⟨h1, ?_⟩
        have := hp5' a h1
        omega
    rw [hlog]
    exact hperm.map _
  · exact (initConfig_spec N ts hk).2

/-- Witness for C1: a full round on a one-slot pool with one concrete
task, along an explicit six-step execution; the submitted task sits
in slot 0 as the theorem states. -/
theorem workqueue_full_round_witness :
    (initConfig 1 [⟨1, 2, 3, 4, 5⟩]).taskOf 0 =
      ([⟨1, 2, 3, 4, 5⟩] : List Task).getD 0 zeroTask :=
  (workqueue_full_round 1 [⟨1, 2, 3, 4, 5⟩] (by norm_num) _
    (Relation.ReflTransGen.head (Step.driver_ready _ 0 [DOp.dsync 0] rfl rfl)
      (Relation.ReflTransGen.head (Step.worker_claim _ 0 (by decide) rfl rfl)
        (Relation.ReflTransGen.head (Step.worker_exec _ 0 (by decide) rfl)
          (Relation.ReflTransGen.head (Step.worker_done _ 0 (by decide) rfl rfl)
            (Relation.ReflTransGen.single (Step.driver_sync _ 0 [] rfl rfl))))))
    rfl).2.2.2 0 (by norm_num)

end Workqueue

namespace Hashwrap

/-! ## Theorems about the hash wrapper -/

/-- C10: `hashwrap_make_wrapper` is idempotent: applied to a value
that is already a wrapper it returns that very wrapper, so
`wrap (wrap v) = wrap v` for every value. -/
theorem make_wrapper_idempotent (v : PyObj) :
    hashwrap_make_wrapper (hashwrap_make_wrapper v) = hashwrap_make_wrapper v := by
  cases v <;> rfl

/-- `pyObjectHash` returns the object's hash value. -/
theorem pyObjectHash_fst (o : PyObj) : (pyObjectHash o).1 = trueHash o := by
  induction o with
  | plain i h => rfl
  | wrapper w c ih =>
      by_cases hc : c = -1
      · simp [pyObjectHash, trueHash, hc, ih]
      · simp [pyObjectHash, trueHash, hc]

/-- Wrapping does not change the hash value. -/
theorem trueHash_make_wrapper (v : PyObj) :
    trueHash (hashwrap_make_wrapper v) = trueHash v := by
  cases v with
  | plain i h => simp [hashwrap_make_wrapper, trueHash]
  | wrapper w c => rfl

/-- After one hash call whose result is a genuine hash value (not the
`-1` sentinel), the object is saturated: a further hash call returns
the same value, leaves the object unchanged, and performs no
underlying hash computation. -/
theorem pyObjectHash_stable (o : PyObj) (h : (pyObjectHash o).1 ≠ -1) :
    pyObjectHash (pyObjectHash o).2.1 =
      ((pyObjectHash o).1, (pyObjectHash o).2.1, 0) := by
  cases o with
  | plain i hv => rfl
  | wrapper w c =>
      by_cases hc : c = -1
      · have h' : (pyObjectHash w).1 ≠ -1 := by
          simpa [pyObjectHash, hc] using h
        simp [pyObjectHash, hc, h']
      · simp [pyObjectHash, hc]

/-- Iterated hash calls on a saturated object: every call returns the
cached value with zero underlying computations. -/
theorem hashCalls_stable (o : PyObj) (hv : Int)
    (hst : pyObjectHash o = (hv, o, 0)) (n : Nat) :
    hashCalls o n = (List.replicate n (hv, 0), o) := by
  induction n with
  | zero => rfl
  | succ n ih => simp [hashCalls, hst, ih, List.replicate_succ]

/-- C9: for every wrappable value `v` (one whose hash is a genuine
hash value, not the `-1` error sentinel), every one of `n ≥ 1`
repeated hash calls on `wrap v` yields the hash of `v` itself, and
every call after the first performs zero underlying hash
computations — the value cached by the first call is returned
thereafter. -/
theorem wrapper_hash_cached_correct (v : PyObj) (n : Nat) (hn : 1 ≤ n)
    (hok : trueHash v ≠ -1) :
    (∀ p ∈ (hashCalls (hashwrap_make_wrapper v) n).1, p.1 = trueHash v) ∧
    (∀ i, 1 ≤ i → i < n →
      ((hashCalls (hashwrap_make_wrapper v) n).1.getD i (0, 0)).2 = 0) := by
  have h1 : (pyObjectHash (hashwrap_make_wrapper v)).1 = trueHash v := by
    rw [pyObjectHash_fst, trueHash_make_wrapper]
  have hne : (pyObjectHash (hashwrap_make_wrapper v)).1 ≠ -1 := by
    rw [h1]; exact hok
  have hst := pyObjectHash_stable (hashwrap_make_wrapper v) hne
  obtain ⟨m, rfl⟩ : ∃ m, n = m + 1 := ⟨n - 1, by omega⟩
  have hcalls : hashCalls (hashwrap_make_wrapper v) (m + 1) =
      (((pyObjectHash (hashwrap_make_wrapper v)).1,
        (pyObjectHash (hashwrap_make_wrapper v)).2.2) ::
        List.replicate m ((pyObjectHash (hashwrap_make_wrapper v)).1, 0),
       (pyObjectHash (hashwrap_make_wrapper v)).2.1) := by
    rw [hashCalls]
    rw [hashCalls_stable _ _ hst m]
  refine ⟨?_, ?_⟩
  · intro p hp
    rw [hcalls] at hp
    rcases List.mem_cons.mp hp with h | h
    · rw [h]; exact h1
    · have := List.eq_of_mem_replicate h
      rw [this]; exact h1
  · intro i hi1 hin
    rw [hcalls]
    obtain ⟨j, rfl⟩ : ∃ j, i = j + 1 := ⟨i - 1, by omega⟩
    have hj : j < m := by omega
    rw [List.getD_cons_succ]
    rw [List.getD_eq_getElem?_getD, List.getElem?_replicate, if_pos hj]
    rfl

/-- Witness for C9 at `v = plain 0 5`, three hash calls: the second
call does no underlying hash computation. -/
theorem wrapper_hash_cached_correct_witness :
    ((hashCalls (hashwrap_make_wrapper (PyObj.plain 0 5)) 3).1.getD 1 (0, 0)).2 = 0 :=
  (wrapper_hash_cached_correct (PyObj.plain 0 5) 3 (by norm_num) (by decide)).2
    1 (by norm_num) (by norm_num)

end Hashwrap
